import Mathlib

/-!
Verification development for the nondeterministic Turing machine (NTM)
breadth-first simulator `NTM_Simulation_sco.py`.

The embedding mirrors the Python source:
* a configuration is the dict `{'state', 'left', 'head', 'right'}` built in
  `bfs_simulation` / `get_transition` (the tape is a zipper: the cells left
  of the head, the symbol under the head, and the cells at/right of it);
* the transition table is the nested dict `transitions[state][symbol]`,
  flattened here to an association list keyed by `(state, symbol)`;
* the BFS loop of `bfs_simulation` (lines 101-147) is `bfsLoop`, a
  fuel-indexed recursion returning `none` when the fuel is insufficient
  (the Python loop has no fuel; every theorem is conditioned on the loop
  having completed, i.e. on a `some` result);
* `output_result` (lines 153-177) is reduced to the reported `Outcome`
  together with the numbers it prints, taken from the returned `LoopRes`.
-/

namespace NTM

/-- A transition rule `(dest, write_char, move)` as stored in
`transitions[src][read_char]` by `parse_tm_file`.  The move is kept as a
raw character because the source compares it with `== 'R'` / `== 'L'`. -/
abbrev TRule := String × Char × Char

/-- The machine description dict returned by `parse_tm_file`, restricted to
the fields `bfs_simulation` reads.  `transitions` flattens the nested dict
`transitions[state][symbol]` into an association list keyed by the pair. -/
structure TM where
  start_state : String
  accept_states : List String
  reject_state : String
  transitions : List ((String × Char) × List TRule)
deriving DecidableEq, Repr

/-- The configuration dict `{'state','left','head','right'}` of the source:
current state, tape cells strictly left of the head (leftmost first), the
symbol under the head, and the cells right of the head. -/
structure Tape where
  state : String
  left : List Char
  head : Char
  right : List Char
deriving DecidableEq, Repr

/-- `tm['transitions'].get(state, {}).get(symbol, None)`, with the two falsy
results (`None` and the empty list) both rendered as `[]`, exactly as the
guard `if not transitions: continue` treats them. -/
def lookupTrans (tm : TM) (state : String) (symbol : Char) : List TRule :=
  match tm.transitions.lookup (state, symbol) with
  | none => []
  | some l => l

/-- The head-movement logic of `bfs_simulation` lines 133-144, applied to a
zipper `(left, head, right)`:
`'R'` appends the head to `left` and pops the first cell of `right`
(blank `'_'` if `right` is empty); `'L'` pushes the head onto `right` and
pops the last cell of `left` (blank if `left` is empty); any other move
character falls through both branches and leaves the zipper unchanged. -/
def shiftHead (move : Char) (left : List Char) (head : Char) (right : List Char) :
    List Char × Char × List Char :=
  if move = 'R' then
    match right with
    | [] => (left ++ [head], '_', [])
    | r :: rs => (left ++ [head], r, rs)
  else if move = 'L' then
    match left.getLast? with
    | none => ([], '_', head :: right)
    | some c => (left.dropLast, c, head :: right)
  else (left, head, right)

/-- One transition application (lines 124-144): build the successor dict
with `state := dest` and `head := write`, then move the head. -/
def applyTr (t : Tape) (tr : TRule) : Tape :=
  let (dest, write, move) := tr
  let (l, h, r) := shiftHead move t.left write t.right
  { state := dest, left := l, head := h, right := r }

/-- A queue entry `(tape, depth, path)` as enqueued by `bfs_simulation`. -/
abbrev Frame := Tape × Nat × List Tape

/-- The local variables of `bfs_simulation` when the `while` loop exits:
the step counter, the `accepted` flag, the dequeued configuration and its
depth at the `break` (meaningful only when `accepted`), the `path` argument
passed to `output_result` (`path if accepted else []`), the remaining
queue, the dequeue log `visited_depths` (kept in dequeue order as
`(depth, tape)` pairs), and the total number of successor configurations
appended to the queue during the run. -/
structure LoopRes where
  steps : Nat
  accepted : Bool
  wtape : Option Tape
  wdepth : Nat
  path : List Tape
  finalQueue : List Frame
  visited : List (Nat × Tape)
  created : Nat
deriving DecidableEq, Repr

/-- The `while queue and steps < max_steps` loop of `bfs_simulation`
(lines 101-147), with an explicit fuel; `none` means the fuel ran out
before the loop terminated. -/
def bfsLoop (tm : TM) (max_steps : Nat) :
    Nat → List Frame → Nat → List (Nat × Tape) → Nat → Option LoopRes
  | 0, _, _, _, _ => none
  | fuel + 1, queue, steps, visited, created =>
    match queue with
    | [] => some ⟨steps, false, none, 0, [], [], visited, created⟩
    | (ct, depth, path) :: rest =>
      if steps < max_steps then
        let visited' := visited ++ [(depth, ct)]
        if tm.accept_states.contains ct.state then
          some ⟨steps, true, some ct, depth, path, rest, visited', created⟩
        else if ct.state = tm.reject_state then
          bfsLoop tm max_steps fuel rest steps visited' created
        else
          let trs := lookupTrans tm ct.state ct.head
          if trs = [] then
            bfsLoop tm max_steps fuel rest steps visited' created
          else
            let children := trs.map (applyTr ct)
            bfsLoop tm max_steps fuel
              (rest ++ children.map (fun c => (c, depth + 1, path ++ [c])))
              (steps + 1) visited' (created + children.length)
      else
        some ⟨steps, false, none, 0, [], (ct, depth, path) :: rest, visited, created⟩

/-- The root configuration built at lines 89-94: head on the first input
character (blank for the empty input), `left` empty, `right` the remaining
input characters. -/
def rootTape (tm : TM) (input : List Char) : Tape :=
  { state := tm.start_state
    left := []
    head := input.headD '_'
    right := input.tail }

/-- `max(visited_depths.keys(), default=0)`: the depth reported as
"Depth of the tree". -/
def treeDepth (visited : List (Nat × Tape)) : Nat :=
  (visited.map (fun p => p.1)).foldr max 0

/-- The three reports `output_result` can emit for a run: acceptance with
the transition count `len(path) - 1` and the accepting path; rejection with
the tree depth; or the maximum-steps message. -/
inductive Outcome
  | accepted (transitions : Nat) (path : List Tape)
  | rejected (depth : Nat)
  | inconclusive (limit : Nat)
deriving DecidableEq, Repr

/-- The branch structure of `output_result` (lines 162-177): acceptance
wins; otherwise `steps < max_steps` distinguishes rejection from the
maximum-steps message. -/
def output_result (max_steps : Nat) (r : LoopRes) : Outcome :=
  if r.accepted then Outcome.accepted (r.path.length - 1) r.path
  else if r.steps < max_steps then Outcome.rejected (treeDepth r.visited)
  else Outcome.inconclusive max_steps

/-- `bfs_simulation` (lines 87-150): run the BFS loop from the queue
holding the single root frame `(tape, 0, [tape])` and summarize via
`output_result`. -/
def bfs_simulation (tm : TM) (input : List Char) (max_steps fuel : Nat) :
    Option (LoopRes × Outcome) :=
  (bfsLoop tm max_steps fuel [(rootTape tm input, 0, [rootTape tm input])] 0 [] 0).map
    (fun r => (r, output_result max_steps r))

/-! ### Concrete machines used as witnesses and counterexamples -/

/-- A machine whose only branch dies out: `(q0, b) → (q1, b, R)` and no
rule at `q1`; no accept states, reject state `qr` never reached. -/
def tmDead : TM :=
  { start_state := "q0", accept_states := [], reject_state := "qr",
    transitions := [(("q0", 'b'), [("q1", 'b', 'R')])] }

/-- A machine whose only branch runs into the declared reject state:
`(q0, b) → (qr, b, R)`. -/
def tmRej : TM :=
  { start_state := "q0", accept_states := [], reject_state := "qr",
    transitions := [(("q0", 'b'), [("qr", 'b', 'R')])] }

/-- A machine accepting `a` in one step: `(q0, a) → (qf, a, R)`. -/
def tmAcc : TM :=
  { start_state := "q0", accept_states := ["qf"], reject_state := "qr",
    transitions := [(("q0", 'a'), [("q1", 'a', 'R'), ("qf", 'a', 'R')])] }

/-- A machine with a nondeterministic fan-out of two at the root. -/
def tmBranch : TM :=
  { start_state := "q0", accept_states := [], reject_state := "qr",
    transitions := [(("q0", 'a'), [("q1", 'a', 'R'), ("q2", 'a', 'R')])] }

/-- The completed run of `tmAcc` on `"a"` with budget 10 (accepting). -/
def runAcc : LoopRes :=
  ⟨1, true, some ⟨"qf", ['a'], '_', []⟩, 1,
   [⟨"q0", [], 'a', []⟩, ⟨"qf", ['a'], '_', []⟩], [],
   [(0, ⟨"q0", [], 'a', []⟩), (1, ⟨"q1", ['a'], '_', []⟩),
    (1, ⟨"qf", ['a'], '_', []⟩)], 2⟩

/-- The completed run of `tmDead` on `"x"` with budget 10 (the root has no
rule, the frontier empties at once). -/
def runDeadX : LoopRes :=
  ⟨0, false, none, 0, [], [], [(0, ⟨"q0", [], 'x', []⟩)], 0⟩

/-- The completed run of `tmBranch` on `"a"` with budget 1 (one expansion
creating two successors, then the budget is exhausted). -/
def runBranch : LoopRes :=
  ⟨1, false, none, 0, [],
   [(⟨"q1", ['a'], '_', []⟩, 1, [⟨"q0", [], 'a', []⟩, ⟨"q1", ['a'], '_', []⟩]),
    (⟨"q2", ['a'], '_', []⟩, 1, [⟨"q0", [], 'a', []⟩, ⟨"q2", ['a'], '_', []⟩])],
   [(0, ⟨"q0", [], 'a', []⟩)], 2⟩

/-- A dequeued configuration is expanded (and the step counter bumped)
exactly when it is non-accepting, non-rejecting, and has at least one
applicable transition rule. -/
def expandable (tm : TM) (t : Tape) : Bool :=
  !tm.accept_states.contains t.state && decide (t.state ≠ tm.reject_state) &&
    decide (lookupTrans tm t.state t.head ≠ [])

/-- Two configurations differ by exactly one transition application: some
rule of the table for the first one's `(state, head)` produces the second
(one write of the head cell followed by one head shift, via `applyTr`). -/
def stepRel (tm : TM) (a b : Tape) : Prop :=
  ∃ tr ∈ lookupTrans tm a.state a.head, b = applyTr a tr

/-- The invariant of a queued frame `(t, depth, p)`: the recorded path `p`
starts at the root configuration, ends at `t`, has `depth + 1` entries,
and consecutive entries are related by one transition application. -/
def PathOK (tm : TM) (input : List Char) (t : Tape) (depth : Nat)
    (p : List Tape) : Prop :=
  p.head? = some (rootTape tm input) ∧ p.getLast? = some t ∧
  p.length = depth + 1 ∧ List.Chain' (stepRel tm) p

/-- The successor configurations of `t`, exactly as the loop body creates
them for a dequeued configuration: none if `t` is accepting (the loop
breaks), none if it is the reject state or has no applicable rule (the
branch is pruned), otherwise one per rule in table order. -/
def succs (tm : TM) (t : Tape) : List Tape :=
  if tm.accept_states.contains t.state then []
  else if t.state = tm.reject_state then []
  else (lookupTrans tm t.state t.head).map (applyTr t)

/-- Generation `g` of a run: the configurations reachable in exactly `g`
transition steps from the root. -/
def gen (tm : TM) (input : List Char) : Nat → List Tape
  | 0 => [rootTape tm input]
  | n + 1 => (gen tm input n).flatMap (succs tm)

/-- The BFS invariant of the queue: for some current generation index `m`
with `gen m = A ++ B` (`A` the already-dequeued prefix, `B` the pending
rest), the queue consists of the frames of `B` at depth `m` followed by
the already-created children of `A` at depth `m + 1`; `A` and every
earlier generation contain no accepting configuration. -/
def Inv (tm : TM) (input : List Char) (queue : List Frame) : Prop :=
  ∃ m A B, gen tm input m = A ++ B ∧
    queue.map (fun f => (f.1, f.2.1)) =
      B.map (fun t => (t, m)) ++ (A.flatMap (succs tm)).map (fun t => (t, m + 1)) ∧
    (queue ≠ [] → B ≠ []) ∧
    (∀ g, g < m → ∀ t ∈ gen tm input g,
      tm.accept_states.contains t.state = false) ∧
    (∀ t ∈ A, tm.accept_states.contains t.state = false)

/-! ### Heap model of the successor-generation loop

The Python loop mutates list objects (`append`, `pop`, `insert`) after
copying the parent's lists with `[:]`.  To state that the parent is never
mutated, the two list objects of each configuration are modelled as
addresses into an explicit store. -/

/-- A store of Python list objects: `mem` maps an address to the list it
holds, `next` is the next fresh address. -/
structure Store where
  mem : Nat → List Char
  next : Nat

/-- Read the list object at address `a`. -/
def Store.get (st : Store) (a : Nat) : List Char := st.mem a

/-- Mutate the list object at address `a` in place. -/
def Store.set (st : Store) (a : Nat) (l : List Char) : Store :=
  ⟨fun x => if x = a then l else st.mem x, st.next⟩

/-- Allocate a new list object (as the slice copy `[:]` does), returning
the store and the fresh address. -/
def Store.alloc (st : Store) (l : List Char) : Store × Nat :=
  (⟨fun x => if x = st.next then l else st.mem x, st.next + 1⟩, st.next)

/-- A configuration whose `left` and `right` lists live in the store. -/
structure RTape where
  state : String
  leftA : Nat
  head : Char
  rightA : Nat

/-- Read a stored configuration back into a value. -/
def readR (st : Store) (t : RTape) : Tape :=
  ⟨t.state, st.get t.leftA, t.head, st.get t.rightA⟩

/-- One iteration of the successor loop (lines 124-146) in heap form:
allocate the two slice copies `current_tape['left'][:]` and
`current_tape['right'][:]`, then perform the head move by mutating only
the fresh copies (`append`/`pop` on the left copy, `insert`/`pop(0)` on
the right copy). -/
def applyTrS (st : Store) (parent : RTape) (tr : TRule) : Store × RTape :=
  let (dest, write, move) := tr
  let (st1, la) := st.alloc (st.get parent.leftA)
  let (st2, ra) := st1.alloc (st1.get parent.rightA)
  if move = 'R' then
    let st3 := st2.set la (st2.get la ++ [write])
    match st2.get ra with
    | [] => (st3, ⟨dest, la, '_', ra⟩)
    | rr :: rs => (st3.set ra rs, ⟨dest, la, rr, ra⟩)
  else if move = 'L' then
    let st3 := st2.set ra (write :: st2.get ra)
    match hcl : st2.get la with
    | [] => (st3, ⟨dest, la, '_', ra⟩)
    | x :: xs =>
      (st3.set la (st2.get la).dropLast,
       ⟨dest, la, (st2.get la).getLast (by rw [hcl]; exact List.cons_ne_nil x xs), ra⟩)
  else (st2, ⟨dest, la, write, ra⟩)

/-- The whole successor loop for one dequeued configuration: apply every
rule in table order, threading the store. -/
def expandS (st : Store) (parent : RTape) : List TRule → Store × List RTape
  | [] => (st, [])
  | tr :: rest =>
    ((expandS (applyTrS st parent tr).1 parent rest).1,
     (applyTrS st parent tr).2 :: (expandS (applyTrS st parent tr).1 parent rest).2)

/-! ### Generic loop lemmas -/

/-- The step counter never passes `max_steps`: it starts `≤ max_steps` and
is only incremented under the guard `steps < max_steps`. -/
theorem bfsLoop_steps_le (tm : TM) (max_steps : Nat) :
    ∀ fuel queue steps visited created r,
      steps ≤ max_steps →
      bfsLoop tm max_steps fuel queue steps visited created = some r →
      r.steps ≤ max_steps := by
  intro fuel
  induction fuel with
  | zero =>
    intro q s v c r _ h
    simp [bfsLoop] at h
  | succ n ih =>
    intro q s v c r hs h
    match q with
    | [] =>
      simp only [bfsLoop] at h
      cases h
      exact hs
    | (ct, depth, path) :: rest =>
      simp only [bfsLoop] at h
      split at h
      · split at h
        · cases h
          exact hs
        · split at h
          · exact ih _ _ _ _ _ hs h
          · split at h
            · exact ih _ _ _ _ _ hs h
            · exact ih _ _ _ _ _ (by omega) h
      · cases h
        exact hs

/-- Each dequeued configuration is appended to the visit log, and the step
counter grows by the number of logged configurations that were
`expandable`. -/
theorem bfsLoop_steps_eq_expanded (tm : TM) (max_steps : Nat) :
    ∀ fuel queue steps visited created r,
      bfsLoop tm max_steps fuel queue steps visited created = some r →
      ∃ w, r.visited = visited ++ w ∧
        r.steps = steps + (w.filter (fun p => expandable tm p.2)).length := by
  intro fuel
  induction fuel with
  | zero =>
    intro q s v c r h
    simp [bfsLoop] at h
  | succ n ih =>
    intro q s v c r h
    match q with
    | [] =>
      simp only [bfsLoop] at h
      cases h
      exact ⟨[], by simp, by simp⟩
    | (ct, depth, path) :: rest =>
      simp only [bfsLoop] at h
      split at h
      · split at h
        · cases h
          rename_i hacc
          refine ⟨[(depth, ct)], rfl, ?_⟩
          have hexp : expandable tm ct = false := by
            unfold expandable
            rw [hacc]
            rfl
          simp [List.filter_cons, hexp]
        · split at h
          · rename_i hrej
            obtain ⟨w, hw, hsw⟩ := ih _ _ _ _ _ h
            refine ⟨(depth, ct) :: w, by simp [hw], ?_⟩
            rw [hsw]
            have hexp : expandable tm ct = false := by
              unfold expandable
              simp [hrej]
            simp [List.filter_cons, hexp]
          · split at h
            · rename_i htr
              obtain ⟨w, hw, hsw⟩ := ih _ _ _ _ _ h
              refine ⟨(depth, ct) :: w, by simp [hw], ?_⟩
              rw [hsw]
              have hexp : expandable tm ct = false := by
                unfold expandable
                simp [htr]
              simp [List.filter_cons, hexp]
            · rename_i hacc hrej htr
              obtain ⟨w, hw, hsw⟩ := ih _ _ _ _ _ h
              refine ⟨(depth, ct) :: w, by simp [hw], ?_⟩
              rw [hsw]
              have hmem : ct.state ∉ tm.accept_states := by
                simpa using hacc
              have hexp : expandable tm ct = true := by
                unfold expandable
                simp [hmem, hrej, htr]
              simp [List.filter_cons, hexp]
              omega
      · cases h
        exact ⟨[], by simp, by simp⟩

/-- When the loop terminates without acceptance, the step counter is below
the budget exactly when the queue has been emptied: the counter reaches
`max_steps` only through an expansion, which enqueues at least one
successor. -/
theorem bfsLoop_budget_frontier (tm : TM) (max_steps : Nat) :
    ∀ fuel queue steps visited created r,
      steps ≤ max_steps →
      (steps = max_steps → queue ≠ []) →
      bfsLoop tm max_steps fuel queue steps visited created = some r →
      r.accepted = false →
      (r.steps < max_steps ↔ r.finalQueue = []) := by
  intro fuel
  induction fuel with
  | zero =>
    intro q s v c r _ _ h _
    simp [bfsLoop] at h
  | succ n ih =>
    intro q s v c r hle hmx h hacc
    match q with
    | [] =>
      simp only [bfsLoop] at h
      cases h
      constructor
      · intro _
        rfl
      · intro _
        rcases Nat.lt_or_ge s max_steps with h1 | h1
        · exact h1
        · exact absurd rfl (hmx (Nat.le_antisymm hle h1))
    | (ct, depth, path) :: rest =>
      simp only [bfsLoop] at h
      split at h
      · rename_i hlt
        split at h
        · cases h
          simp at hacc
        · split at h
          · exact ih _ _ _ _ _ hle (fun he => absurd he (Nat.ne_of_lt hlt)) h hacc
          · split at h
            · exact ih _ _ _ _ _ hle (fun he => absurd he (Nat.ne_of_lt hlt)) h hacc
            · rename_i htr
              refine ih _ _ _ _ _ (by omega) (fun _ hnil => ?_) h hacc
              rw [List.append_eq_nil] at hnil
              rw [List.map_eq_nil_iff, List.map_eq_nil_iff] at hnil
              exact htr hnil.2
      · rename_i hlt
        cases h
        constructor
        · intro hs
          exact absurd hs hlt
        · intro hq
          exact absurd hq (List.cons_ne_nil _ _)

/-- The path invariant is preserved by the loop: if every queued frame
carries a well-formed path, the frame dequeued at the `break` does too. -/
theorem bfsLoop_path_inv (tm : TM) (input : List Char) (max_steps : Nat) :
    ∀ fuel queue steps visited created r,
      (∀ f ∈ queue, PathOK tm input f.1 f.2.1 f.2.2) →
      bfsLoop tm max_steps fuel queue steps visited created = some r →
      r.accepted = true →
      ∃ w, r.wtape = some w ∧ PathOK tm input w r.wdepth r.path := by
  intro fuel
  induction fuel with
  | zero =>
    intro q s v c r _ h _
    simp [bfsLoop] at h
  | succ n ih =>
    intro q s v c r hq h hacc
    match q with
    | [] =>
      simp only [bfsLoop] at h
      cases h
      simp at hacc
    | (ct, depth, path) :: rest =>
      have hct : PathOK tm input ct depth path := hq _ (List.mem_cons_self _ _)
      have hrest : ∀ f ∈ rest, PathOK tm input f.1 f.2.1 f.2.2 :=
        fun f hf => hq f (List.mem_cons_of_mem _ hf)
      simp only [bfsLoop] at h
      split at h
      · split at h
        · cases h
          exact ⟨ct, rfl, hct⟩
        · split at h
          · exact ih _ _ _ _ _ hrest h hacc
          · split at h
            · exact ih _ _ _ _ _ hrest h hacc
            · refine ih _ _ _ _ _ ?_ h hacc
              intro f hf
              rcases List.mem_append.mp hf with hf | hf
              · exact hrest f hf
              · rcases List.mem_map.mp hf with ⟨c', hc', rfl⟩
                rcases List.mem_map.mp hc' with ⟨tr, htr, rfl⟩
                obtain ⟨hhead, hlast, hlen, hchain⟩ := hct
                have hne : path ≠ [] := by
                  intro he
                  rw [he] at hlen
                  simp at hlen
                refine ⟨?_, ?_, ?_, ?_⟩
                · match path, hne with
                  | a :: as, _ =>
                    simpa using hhead
                · simp [List.getLast?_concat]
                · simp only [List.length_append, List.length_cons,
                    List.length_nil, hlen]
                · refine List.Chain'.append hchain (List.chain'_singleton _)
                    fun x hx y hy => ?_
                  rw [hlast] at hx
                  rw [Option.mem_some_iff] at hx
                  simp only [List.head?_cons, Option.mem_some_iff] at hy
                  subst hx
                  subst hy
                  exact ⟨tr, htr, rfl⟩
      · cases h
        simp at hacc

/-- Re-establishing the BFS invariant after dequeuing the front frame of
the current generation: either the generation still has pending members,
or the queue now holds exactly the next generation. -/
theorem Inv_push (tm : TM) (input : List Char) (depth : Nat)
    (A B' : List Tape) (ct : Tape) (newq : List Frame)
    (hgenm : gen tm input depth = A ++ ct :: B')
    (hproj : newq.map (fun f => (f.1, f.2.1)) =
      B'.map (fun t => (t, depth)) ++
        ((A ++ [ct]).flatMap (succs tm)).map (fun t => (t, depth + 1)))
    (hgenlt : ∀ g, g < depth → ∀ t ∈ gen tm input g,
      tm.accept_states.contains t.state = false)
    (hA : ∀ t ∈ A, tm.accept_states.contains t.state = false)
    (hct : tm.accept_states.contains ct.state = false) :
    Inv tm input newq := by
  have hAct : ∀ t ∈ A ++ [ct], tm.accept_states.contains t.state = false := by
    intro t ht
    rcases List.mem_append.mp ht with ht | ht
    · exact hA t ht
    · simp only [List.mem_singleton] at ht
      subst ht
      exact hct
  cases B' with
  | cons b2 B'' =>
    refine ⟨depth, A ++ [ct], b2 :: B'', ?_, hproj, fun _ => List.cons_ne_nil _ _,
      hgenlt, hAct⟩
    rw [hgenm]
    simp
  | nil =>
    have hgen1 : gen tm input (depth + 1) = (A ++ [ct]).flatMap (succs tm) := by
      show (gen tm input depth).flatMap (succs tm) = _
      rw [hgenm]
    refine ⟨depth + 1, [], gen tm input (depth + 1), by simp, ?_, ?_, ?_, by simp⟩
    · rw [hproj, hgen1]
      simp
    · intro hne hgnil
      apply hne
      have := hproj
      rw [hgen1] at hgnil
      rw [hgnil] at this
      simpa using this
    · intro g hg t ht
      rcases Nat.lt_succ_iff_lt_or_eq.mp hg with hg | rfl
      · exact hgenlt g hg t ht
      · rw [hgenm] at ht
        have : t ∈ A ++ [ct] := by simpa using ht
        exact hAct t this

/-- The BFS invariant entails the shortest-path property: if the loop
breaks on an accepting configuration dequeued at depth `wdepth`, then no
generation strictly below `wdepth` contains an accepting configuration. -/
theorem bfsLoop_gen_inv (tm : TM) (input : List Char) (max_steps : Nat) :
    ∀ fuel queue steps visited created r,
      Inv tm input queue →
      bfsLoop tm max_steps fuel queue steps visited created = some r →
      r.accepted = true →
      ∀ (g : Nat) (t : Tape), g < r.wdepth → t ∈ gen tm input g →
        tm.accept_states.contains t.state = false := by
  intro fuel
  induction fuel with
  | zero =>
    intro q s v c r _ h _
    simp [bfsLoop] at h
  | succ n ih =>
    intro q s v c r hinv h hacc
    match q with
    | [] =>
      simp only [bfsLoop] at h
      cases h
      simp at hacc
    | (ct, depth, path) :: rest =>
      obtain ⟨m, A, B, hgenm, hproj, hqB, hgenlt, hA⟩ := hinv
      have hBne : B ≠ [] := hqB (List.cons_ne_nil _ _)
      cases B with
      | nil => exact absurd rfl hBne
      | cons b B' =>
        simp only [List.map_cons, List.cons_append] at hproj
        injection hproj with hhd htl
        injection hhd with hcb hdm
        subst hcb
        subst hdm
        simp only [bfsLoop] at h
        split at h
        · split at h
          · cases h
            intro g t hg ht
            exact hgenlt g hg t ht
          · rename_i haccF
            have hmem : ct.state ∉ tm.accept_states := by
              simpa using haccF
            have hct : tm.accept_states.contains ct.state = false := by
              simpa using haccF
            split at h
            · rename_i hrej
              have hsucc : succs tm ct = [] := by
                unfold succs
                simp [hmem, hrej]
              refine ih _ _ _ _ _
                (Inv_push tm input depth A B' ct rest hgenm ?_ hgenlt hA hct)
                h hacc
              have hbind : (A ++ [ct]).flatMap (succs tm) = A.flatMap (succs tm) := by
                rw [List.flatMap_append]
                simp [hsucc]
              rw [hbind]
              exact htl
            · rename_i hrej
              split at h
              · rename_i htrn
                have hsucc : succs tm ct = [] := by
                  unfold succs
                  simp [hmem, hrej, htrn]
                refine ih _ _ _ _ _
                  (Inv_push tm input depth A B' ct rest hgenm ?_ hgenlt hA hct)
                  h hacc
                have hbind : (A ++ [ct]).flatMap (succs tm) = A.flatMap (succs tm) := by
                  rw [List.flatMap_append]
                  simp [hsucc]
                rw [hbind]
                exact htl
              · rename_i htrn
                have hsucc : succs tm ct =
                    (lookupTrans tm ct.state ct.head).map (applyTr ct) := by
                  unfold succs
                  simp [hmem, hrej]
                refine ih _ _ _ _ _
                  (Inv_push tm input depth A B' ct _ hgenm ?_ hgenlt hA hct)
                  h hacc
                rw [List.map_append, htl, List.map_map]
                have hcomp : ((fun f : Frame => (f.1, f.2.1)) ∘
                    fun c => (c, depth + 1, path ++ [c])) =
                    fun c : Tape => (c, depth + 1) := rfl
                rw [hcomp]
                have hbind : (A ++ [ct]).flatMap (succs tm) =
                    A.flatMap (succs tm) ++
                      (lookupTrans tm ct.state ct.head).map (applyTr ct) := by
                  rw [List.flatMap_append]
                  simp [hsucc]
                rw [hbind, List.map_append, List.append_assoc]
        · cases h
          simp at hacc

/-- One heap successor allocates exactly the two slice copies. -/
theorem applyTrS_next (st : Store) (p : RTape) (tr : TRule) :
    (applyTrS st p tr).1.next = st.next + 2 := by
  obtain ⟨dest, write, move⟩ := tr
  simp only [applyTrS, Store.alloc, Store.get, Store.set]
  split
  · split <;> rfl
  · split
    · split <;> rfl
    · rfl

/-- The left list of a heap successor is the first fresh address. -/
theorem applyTrS_leftA (st : Store) (p : RTape) (tr : TRule) :
    (applyTrS st p tr).2.leftA = st.next := by
  obtain ⟨dest, write, move⟩ := tr
  simp only [applyTrS, Store.alloc, Store.get, Store.set]
  split
  · split <;> rfl
  · split
    · split <;> rfl
    · rfl

/-- The right list of a heap successor is the second fresh address. -/
theorem applyTrS_rightA (st : Store) (p : RTape) (tr : TRule) :
    (applyTrS st p tr).2.rightA = st.next + 1 := by
  obtain ⟨dest, write, move⟩ := tr
  simp only [applyTrS, Store.alloc, Store.get, Store.set]
  split
  · split <;> rfl
  · split
    · split <;> rfl
    · rfl

/-- A heap successor mutates only the two fresh copies: every previously
allocated list object is unchanged. -/
theorem applyTrS_frame (st : Store) (p : RTape) (tr : TRule) (a : Nat)
    (ha : a < st.next) :
    (applyTrS st p tr).1.get a = st.get a := by
  obtain ⟨dest, write, move⟩ := tr
  have h1 : a ≠ st.next := by omega
  have h2 : a ≠ st.next + 1 := by omega
  simp only [applyTrS, Store.alloc, Store.get, Store.set]
  split
  · split <;> simp [h1, h2]
  · split
    · split <;> simp [h1, h2]
    · simp [h1, h2]

/-- Reading a heap successor back gives exactly the pure transition
application on the parent's value. -/
theorem applyTrS_read (st : Store) (p : RTape) (tr : TRule)
    (hl : p.leftA < st.next) (hr : p.rightA < st.next) :
    readR (applyTrS st p tr).1 (applyTrS st p tr).2 =
      applyTr (readR st p) tr := by
  obtain ⟨dest, write, move⟩ := tr
  have h1 : p.leftA ≠ st.next := by omega
  have h2 : p.rightA ≠ st.next := by omega
  have h3 : p.leftA ≠ st.next + 1 := by omega
  have h4 : p.rightA ≠ st.next + 1 := by omega
  simp only [applyTrS, applyTr, readR, shiftHead, Store.alloc, Store.get, Store.set]
  split
  · rename_i hmR
    split
    · rename_i heq
      simp [h2] at heq
      simp [hmR, h1, h2, h3, h4, heq]
    · rename_i rr rs heq
      simp [h2] at heq
      simp [hmR, h1, h2, h3, h4, heq]
  · rename_i hmR
    split
    · rename_i hmL
      split
      · rename_i heq
        simp at heq
        simp [hmR, hmL, h1, h2, h3, h4, heq]
      · rename_i x xs heq
        simp at heq
        simp [hmR, hmL, h1, h2, h3, h4, heq,
          List.getLast?_eq_getLast (x :: xs) (List.cons_ne_nil x xs)]
    · rename_i hmL
      simp [hmR, hmL, h1, h2, h3, h4]

/-- The successor loop allocates exactly two list objects per rule. -/
theorem expandS_next (st : Store) (p : RTape) (trs : List TRule) :
    (expandS st p trs).1.next = st.next + 2 * trs.length := by
  induction trs generalizing st with
  | nil => rfl
  | cons tr rest ih =>
    show (expandS (applyTrS st p tr).1 p rest).1.next = _
    rw [ih, applyTrS_next]
    simp [List.length_cons]
    ring

/-- The successor loop never mutates a previously allocated list object. -/
theorem expandS_frame (st : Store) (p : RTape) (trs : List TRule) (a : Nat)
    (ha : a < st.next) :
    (expandS st p trs).1.get a = st.get a := by
  induction trs generalizing st with
  | nil => rfl
  | cons tr rest ih =>
    show (expandS (applyTrS st p tr).1 p rest).1.get a = _
    rw [ih _ (by rw [applyTrS_next]; omega), applyTrS_frame st p tr a ha]

/-- Every configuration created by the successor loop lives at fresh
addresses. -/
theorem expandS_fresh (st : Store) (p : RTape) (trs : List TRule) :
    ∀ c ∈ (expandS st p trs).2, st.next ≤ c.leftA ∧ st.next ≤ c.rightA := by
  induction trs generalizing st with
  | nil =>
    intro c hc
    simp [expandS] at hc
  | cons tr rest ih =>
    intro c hc
    rcases List.mem_cons.mp hc with rfl | hc
    · rw [applyTrS_leftA, applyTrS_rightA]
      omega
    · have h := ih (applyTrS st p tr).1 c hc
      have hn := applyTrS_next st p tr
      omega

/-- Reading the created successors back from the final store gives
exactly the pure transition applications on the parent's value. -/
theorem expandS_read (st : Store) (p : RTape) (trs : List TRule)
    (hl : p.leftA < st.next) (hr : p.rightA < st.next) :
    (expandS st p trs).2.map (readR (expandS st p trs).1) =
      trs.map (applyTr (readR st p)) := by
  induction trs generalizing st with
  | nil => rfl
  | cons tr rest ih =>
    have hn := applyTrS_next st p tr
    show ((applyTrS st p tr).2 :: (expandS (applyTrS st p tr).1 p rest).2).map
        (readR (expandS (applyTrS st p tr).1 p rest).1) = _
    rw [List.map_cons]
    have hchild : readR (expandS (applyTrS st p tr).1 p rest).1 (applyTrS st p tr).2 =
        applyTr (readR st p) tr := by
      have hcl : (applyTrS st p tr).2.leftA < (applyTrS st p tr).1.next := by
        rw [applyTrS_leftA, hn]
        omega
      have hcr : (applyTrS st p tr).2.rightA < (applyTrS st p tr).1.next := by
        rw [applyTrS_rightA, hn]
        omega
      have : readR (expandS (applyTrS st p tr).1 p rest).1 (applyTrS st p tr).2 =
          readR (applyTrS st p tr).1 (applyTrS st p tr).2 := by
        unfold readR
        rw [expandS_frame _ _ _ _ hcl, expandS_frame _ _ _ _ hcr]
      rw [this, applyTrS_read st p tr hl hr]
    rw [hchild, ih _ (by omega) (by omega)]
    have hp : readR (applyTrS st p tr).1 p = readR st p := by
      unfold readR
      rw [applyTrS_frame _ _ _ _ hl, applyTrS_frame _ _ _ _ hr]
    rw [hp, List.map_cons]

/-! ### Claims -/

/-- C1: for every machine, input and budget, the `steps` counter reported
as "Total transitions" on completion of `bfs_simulation` never exceeds
`max_steps`. -/
theorem steps_le_max_steps (tm : TM) (input : List Char) (max_steps fuel : Nat)
    (r : LoopRes) (o : Outcome)
    (h : bfs_simulation tm input max_steps fuel = some (r, o)) :
    r.steps ≤ max_steps := by
  unfold bfs_simulation at h
  rcases Option.map_eq_some'.mp h with ⟨r', hr', hro⟩
  injection hro with h1 h2
  subst h1
  exact bfsLoop_steps_le tm max_steps fuel _ 0 [] 0 _ (Nat.zero_le _) hr'

/-- C1 witness: the completed run of `tmDead` on `"b"` with budget 10. -/
theorem steps_le_max_steps_witness :
    LoopRes.steps
      ⟨1, false, none, 0, [], [],
       [(0, ⟨"q0", [], 'b', []⟩), (1, ⟨"q1", ['b'], '_', []⟩)], 1⟩ ≤ 10 :=
  steps_le_max_steps tmDead ['b'] 10 10 _ (Outcome.rejected 1) (by decide)

/-- C8: expanding a configuration never mutates it — after the whole
successor loop, the parent reads back unchanged (state, left segment, head
symbol, right segment), no previously allocated list object was touched,
every successor's two list objects are at fresh addresses distinct from
the parent's, and the successors read back as exactly the pure transition
applications on the parent's value. -/
theorem expand_no_mutation (st : Store) (parent : RTape) (trs : List TRule)
    (hl : parent.leftA < st.next) (hr : parent.rightA < st.next) :
    readR (expandS st parent trs).1 parent = readR st parent ∧
    (∀ a, a < st.next → (expandS st parent trs).1.get a = st.get a) ∧
    (∀ c ∈ (expandS st parent trs).2,
      st.next ≤ c.leftA ∧ st.next ≤ c.rightA ∧
      c.leftA ≠ parent.leftA ∧ c.rightA ≠ parent.rightA ∧
      c.leftA ≠ parent.rightA ∧ c.rightA ≠ parent.leftA) ∧
    (expandS st parent trs).2.map (readR (expandS st parent trs).1) =
      trs.map (applyTr (readR st parent)) := by
  refine ⟨?_, ?_, ?_, expandS_read st parent trs hl hr⟩
  · unfold readR
    rw [expandS_frame _ _ _ _ hl, expandS_frame _ _ _ _ hr]
  · intro a ha
    exact expandS_frame st parent trs a ha
  · intro c hc
    obtain ⟨hcl, hcr⟩ := expandS_fresh st parent trs c hc
    omega

/-- C8 witness: expanding a stored configuration of `tmDead` with its one
rule. -/
theorem expand_no_mutation_witness :
    readR (expandS ⟨fun _ => [], 2⟩ ⟨"q0", 0, 'b', 1⟩ [("q1", 'b', 'R')]).1
        ⟨"q0", 0, 'b', 1⟩ =
      readR ⟨fun _ => [], 2⟩ ⟨"q0", 0, 'b', 1⟩ ∧
    (∀ a, a < (2 : Nat) →
      (expandS ⟨fun _ => [], 2⟩ ⟨"q0", 0, 'b', 1⟩ [("q1", 'b', 'R')]).1.get a =
        Store.get ⟨fun _ => [], 2⟩ a) ∧
    (∀ c ∈ (expandS ⟨fun _ => [], 2⟩ ⟨"q0", 0, 'b', 1⟩ [("q1", 'b', 'R')]).2,
      (2 : Nat) ≤ c.leftA ∧ (2 : Nat) ≤ c.rightA ∧
      c.leftA ≠ (0 : Nat) ∧ c.rightA ≠ (1 : Nat) ∧
      c.leftA ≠ (1 : Nat) ∧ c.rightA ≠ (0 : Nat)) ∧
    (expandS ⟨fun _ => [], 2⟩ ⟨"q0", 0, 'b', 1⟩ [("q1", 'b', 'R')]).2.map
        (readR (expandS ⟨fun _ => [], 2⟩ ⟨"q0", 0, 'b', 1⟩ [("q1", 'b', 'R')]).1) =
      [("q1", 'b', 'R')].map
        (applyTr (readR ⟨fun _ => [], 2⟩ ⟨"q0", 0, 'b', 1⟩)) :=
  expand_no_mutation ⟨fun _ => [], 2⟩ ⟨"q0", 0, 'b', 1⟩ [("q1", 'b', 'R')]
    (by decide) (by decide)

/-- C9: the step counter counts exactly the dequeued configurations that
are non-accepting, non-rejecting and have an applicable rule (the expanded
ones), not the successors created; and the successors created in a run can
exceed the budget (`tmBranch` on `"a"` with budget 1 creates 2). -/
theorem steps_counts_expanded :
    (∀ (tm : TM) (input : List Char) (max_steps fuel : Nat) (r : LoopRes)
       (o : Outcome),
       bfs_simulation tm input max_steps fuel = some (r, o) →
       r.steps = (r.visited.filter (fun p => expandable tm p.2)).length) ∧
    (bfs_simulation tmBranch ['a'] 1 10 =
        some (runBranch, Outcome.inconclusive 1) ∧
      runBranch.steps = 1 ∧ runBranch.created = 2 ∧ 1 < runBranch.created) := by
  constructor
  · intro tm input max_steps fuel r o h
    unfold bfs_simulation at h
    rcases Option.map_eq_some'.mp h with ⟨r', hr', hro⟩
    injection hro with h1 h2
    subst h1
    obtain ⟨w, hw, hsw⟩ :=
      bfsLoop_steps_eq_expanded tm max_steps fuel _ 0 [] 0 _ hr'
    rw [List.nil_append] at hw
    rw [hsw, hw]
    simp
  · exact ⟨by decide, rfl, rfl, by decide⟩

/-- C9 witness: the `tmBranch` run, where the counter 1 equals the number
of expanded configurations while 2 successors were created. -/
theorem steps_counts_expanded_witness :
    runBranch.steps =
      (runBranch.visited.filter (fun p => expandable tmBranch p.2)).length :=
  steps_counts_expanded.1 tmBranch ['a'] 1 10 runBranch (Outcome.inconclusive 1)
    (by decide)

/-- C3: a run that ends without acceptance reports rejection exactly when
the frontier was exhausted (the queue emptied: every branch was pruned or
rejecting), and the maximum-steps (inconclusive) report exactly when the
budget ran out with branches still pending. -/
theorem rejected_iff_frontier_exhausted (tm : TM) (input : List Char)
    (max_steps fuel : Nat) (r : LoopRes) (o : Outcome)
    (h : bfs_simulation tm input max_steps fuel = some (r, o))
    (hacc : r.accepted = false) :
    (o = Outcome.rejected (treeDepth r.visited) ↔ r.finalQueue = []) ∧
    (o = Outcome.inconclusive max_steps ↔ r.finalQueue ≠ []) := by
  unfold bfs_simulation at h
  rcases Option.map_eq_some'.mp h with ⟨r', hr', hro⟩
  injection hro with h1 h2
  subst h1
  subst h2
  have hiff := bfsLoop_budget_frontier tm max_steps fuel _ 0 [] 0 _
    (Nat.zero_le _) (fun _ => List.cons_ne_nil _ _) hr' hacc
  by_cases hs : r'.steps < max_steps
  · simp [output_result, hacc, hs, hiff.mp hs]
  · have hq : r'.finalQueue ≠ [] := fun he => hs (hiff.mpr he)
    simp [output_result, hacc, hs, hq]

/-- C3 witness: the `tmDead` run on `"x"`: the frontier empties at depth 0
and the report is the rejection outcome. -/
theorem rejected_iff_frontier_exhausted_witness :
    (Outcome.rejected 0 = Outcome.rejected (treeDepth runDeadX.visited) ↔
        runDeadX.finalQueue = []) ∧
    (Outcome.rejected 0 = Outcome.inconclusive 10 ↔
        runDeadX.finalQueue ≠ []) :=
  rejected_iff_frontier_exhausted tmDead ['x'] 10 10 runDeadX
    (Outcome.rejected 0) (by decide) rfl

/-- C2 counterexample: the summarized output does not report dead-end
pruning separately from explicit rejection.  `tmDead` on `"b"` prunes a
dead end (a dequeued configuration with no applicable rule whose state is
not the reject state, and the reject state is never visited), `tmRej` on
`"b"` dequeues the declared reject state, yet both runs produce the same
reported outcome. -/
theorem deadend_report_not_separate_cex :
    (bfs_simulation tmDead ['b'] 10 10).map (fun p => p.2) =
      (bfs_simulation tmRej ['b'] 10 10).map (fun p => p.2) ∧
    (bfs_simulation tmDead ['b'] 10 10).map
        (fun p => p.1.visited.any (fun q => q.2.state == tmDead.reject_state)) =
      some false ∧
    (bfs_simulation tmDead ['b'] 10 10).map
        (fun p => p.1.visited.any (fun q =>
          decide (lookupTrans tmDead q.2.state q.2.head = []) &&
          !tmDead.accept_states.contains q.2.state &&
          !(q.2.state == tmDead.reject_state))) = some true ∧
    (bfs_simulation tmRej ['b'] 10 10).map
        (fun p => p.1.visited.any (fun q => q.2.state == tmRej.reject_state)) =
      some true := by
  decide

/-- C2 amended: a dequeued configuration with no applicable rule whose
state is not the reject state is pruned as a dead end — it is logged,
produces no successors and counts no step, and the loop continues with the
rest of the queue; the summarized output however does not distinguish this
from explicit rejection. -/
theorem deadend_prunes_branch (tm : TM) (max_steps fuel steps created : Nat)
    (ct : Tape) (depth : Nat) (path : List Tape) (rest : List Frame)
    (visited : List (Nat × Tape))
    (hacc : tm.accept_states.contains ct.state = false)
    (hrej : ct.state ≠ tm.reject_state)
    (htr : lookupTrans tm ct.state ct.head = [])
    (hlt : steps < max_steps) :
    bfsLoop tm max_steps (fuel + 1) ((ct, depth, path) :: rest) steps
        visited created =
      bfsLoop tm max_steps fuel rest steps (visited ++ [(depth, ct)]) created := by
  have hmem : ct.state ∉ tm.accept_states := by
    simpa using hacc
  simp [bfsLoop, hmem, hrej, htr, hlt]

/-- C2 amended witness: pruning the stuck configuration reached by
`tmDead`. -/
theorem deadend_prunes_branch_witness :
    bfsLoop tmDead 10 (9 + 1) [(⟨"q1", ['b'], '_', []⟩, 1, [])] 0 [] 0 =
      bfsLoop tmDead 10 9 [] 0 [(1, ⟨"q1", ['b'], '_', []⟩)] 0 :=
  deadend_prunes_branch tmDead 10 9 0 0 ⟨"q1", ['b'], '_', []⟩ 1 [] [] []
    (by decide) (by decide) (by decide) (by decide)

/-- C4: if the run reports acceptance with the witness dequeued at depth
`wdepth`, then no generation strictly below `wdepth` contains an accepting
configuration — the first-discovered accepting configuration lies at the
minimum accepting depth. -/
theorem accept_depth_minimal (tm : TM) (input : List Char)
    (max_steps fuel : Nat) (r : LoopRes) (o : Outcome)
    (h : bfs_simulation tm input max_steps fuel = some (r, o))
    (hacc : r.accepted = true) :
    ∀ (g : Nat) (t : Tape), g < r.wdepth → t ∈ gen tm input g →
      tm.accept_states.contains t.state = false := by
  unfold bfs_simulation at h
  rcases Option.map_eq_some'.mp h with ⟨r', hr', hro⟩
  injection hro with h1 h2
  subst h1
  have hinv : Inv tm input [(rootTape tm input, 0, [rootTape tm input])] := by
    refine ⟨0, [], [rootTape tm input], by simp [gen], by simp,
      fun _ => List.cons_ne_nil _ _, ?_, by simp⟩
    intro g hg
    exact absurd hg (Nat.not_lt_zero g)
  exact bfsLoop_gen_inv tm input max_steps fuel _ 0 [] 0 _ hinv hr' hacc

/-- C4 witness: in the accepting run of `tmAcc` on `"a"` (witness at depth
1), generation 0 — the root — is not accepting. -/
theorem accept_depth_minimal_witness :
    tmAcc.accept_states.contains (rootTape tmAcc ['a']).state = false :=
  accept_depth_minimal tmAcc ['a'] 10 10 runAcc
    (Outcome.accepted 1 [⟨"q0", [], 'a', []⟩, ⟨"qf", ['a'], '_', []⟩])
    (by decide) rfl 0 (rootTape tmAcc ['a']) (by decide) (by decide)

/-- C5: on an accepting run, the recorded path starts at the root
configuration (start state, input on the tape, head at position 0), ends
at the accepting witness, has `wdepth + 1` entries, and every consecutive
pair differs by exactly one transition application. -/
theorem accept_path_reconstruction (tm : TM) (input : List Char)
    (max_steps fuel : Nat) (r : LoopRes) (o : Outcome)
    (h : bfs_simulation tm input max_steps fuel = some (r, o))
    (hacc : r.accepted = true) :
    r.path.head? = some (rootTape tm input) ∧
    r.path.getLast? = r.wtape ∧
    r.path.length = r.wdepth + 1 ∧
    List.Chain' (stepRel tm) r.path := by
  unfold bfs_simulation at h
  rcases Option.map_eq_some'.mp h with ⟨r', hr', hro⟩
  injection hro with h1 h2
  subst h1
  have hinit : ∀ f ∈ [(rootTape tm input, 0, [rootTape tm input])],
      PathOK tm input f.1 f.2.1 f.2.2 := by
    intro f hf
    simp only [List.mem_singleton] at hf
    subst hf
    exact ⟨rfl, rfl, rfl, List.chain'_singleton _⟩
  obtain ⟨w, hw, hhead, hlast, hlen, hchain⟩ :=
    bfsLoop_path_inv tm input max_steps fuel _ 0 [] 0 _ hinit hr' hacc
  refine ⟨hhead, ?_, hlen, hchain⟩
  rw [hlast, hw]

/-- C5 witness: the accepting run of `tmAcc` on `"a"`. -/
theorem accept_path_reconstruction_witness :
    runAcc.path.head? = some (rootTape tmAcc ['a']) ∧
    runAcc.path.getLast? = runAcc.wtape ∧
    runAcc.path.length = runAcc.wdepth + 1 ∧
    List.Chain' (stepRel tmAcc) runAcc.path :=
  accept_path_reconstruction tmAcc ['a'] 10 10 runAcc
    (Outcome.accepted 1 [⟨"q0", [], 'a', []⟩, ⟨"qf", ['a'], '_', []⟩])
    (by decide) rfl

/-- C6: with a step budget of 0 the simulation immediately reports the
maximum-steps (inconclusive) outcome with `steps = 0`, an untouched queue,
no configuration dequeued and no successor created. -/
theorem zero_budget_inconclusive (tm : TM) (input : List Char) (fuel : Nat) :
    bfs_simulation tm input 0 (fuel + 1) =
      some (⟨0, false, none, 0, [],
             [(rootTape tm input, 0, [rootTape tm input])], [], 0⟩,
            Outcome.inconclusive 0) := by
  simp [bfs_simulation, bfsLoop, output_result]

/-- C7: shifting the head left and then right (no intervening write)
returns the original symbol under the head. -/
theorem shift_left_right_head (l : List Char) (h : Char) (r : List Char) :
    (shiftHead 'R' (shiftHead 'L' l h r).1 (shiftHead 'L' l h r).2.1
      (shiftHead 'L' l h r).2.2).2.1 = h := by
  cases hl : l.getLast? <;> simp [shiftHead, hl]

/-- C10: on the empty input the root configuration has the blank symbol
under the head and both tape segments empty, and `bfs_simulation` runs the
BFS loop on exactly that all-blank configuration. -/
theorem empty_input_blank_tape (tm : TM) (max_steps fuel : Nat) :
    rootTape tm [] = ⟨tm.start_state, [], '_', []⟩ ∧
    bfs_simulation tm [] max_steps fuel =
      (bfsLoop tm max_steps fuel
        [(⟨tm.start_state, [], '_', []⟩, 0, [⟨tm.start_state, [], '_', []⟩])]
        0 [] 0).map (fun r => (r, output_result max_steps r)) :=
  ⟨rfl, rfl⟩

end NTM
